import Mathlib

/-!
Shallow embedding of the `int-div-cum-error` crate (`src/lib.rs`).

The crate is generic over primitive signed integers of width `w`
(`i8`, `i16`, `i32`, `i64`, `i128`).  We model a `w`-bit signed machine
integer as an `Int` together with the representability predicate
`Representable w`; the checked operations (`checked_add`, `checked_sub`,
`checked_div`) return `none` exactly when the Rust counterparts do on
in-range inputs.  Unchecked Rust operations (`+=`, `-=`, `+ I::ONE`)
are modelled as exact `Int` arithmetic; the safety claims about them
are proved as representability theorems.

The stateful `checked_divide_with_cum_error` mutates its `cum_error`
out-parameter; we model it as a function returning the pair
(result, new accumulator), where a `none` result leaves the
accumulator component equal to the input (as the Rust early returns do).
-/

namespace IntDivCumError

/-- Rounding kinds (enum `Rounding` in `src/lib.rs`). -/
inductive Rounding where
  /-- towards the nearest integer -/
  | Round
  /-- towards negative infinity -/
  | Floor
  /-- towards positive infinity -/
  | Ceiling
  /-- towards zero -/
  | TowardsZero
  /-- away from zero -/
  | AwayFromZero
deriving DecidableEq, Repr

/-- Smallest value of a `w`-bit signed integer. -/
def intMin (w : Nat) : Int := -(2 ^ (w - 1))

/-- Largest value of a `w`-bit signed integer. -/
def intMax (w : Nat) : Int := 2 ^ (w - 1) - 1

/-- Value `n` is representable as a `w`-bit signed integer. -/
def Representable (w : Nat) (n : Int) : Prop := intMin w ≤ n ∧ n ≤ intMax w

instance (w : Nat) (n : Int) : Decidable (Representable w n) :=
  inferInstanceAs (Decidable (And _ _))

/-- Rust `i{w}::checked_add`: `none` exactly on overflow. -/
def checked_add (w : Nat) (a b : Int) : Option Int :=
  if Representable w (a + b) then some (a + b) else none

/-- Rust `i{w}::checked_sub`: `none` exactly on overflow. -/
def checked_sub (w : Nat) (a b : Int) : Option Int :=
  if Representable w (a - b) then some (a - b) else none

/-- Rust `i{w}::checked_div`: `none` iff dividing by zero, or the
most-negative value by `-1` (the only quotient overflow for in-range
operands).  Rust signed division truncates, i.e. is `Int.tdiv`. -/
def checked_div (w : Nat) (a b : Int) : Option Int :=
  if b = 0 ∨ (a = intMin w ∧ b = -1) then none else some (a.tdiv b)

/-- Predicate `cmp_abs_ge` from `src/lib.rs`: `abs(a) >= abs(b)`, computed on
unsigned magnitudes (`unsigned_abs`, i.e. `Int.natAbs`). -/
def cmp_abs_ge (a b : Int) : Bool :=
  decide (b.natAbs ≤ a.natAbs)

/-- Predicate `cmp_abs_half_ge` from `src/lib.rs`: `abs(a) * 2 >= abs(b)`.
The doubling is a `w`-bit unsigned `checked_add`; on overflow the
result is `true`. -/
def cmp_abs_half_ge (w : Nat) (a b : Int) : Bool :=
  if a.natAbs + a.natAbs ≤ 2 ^ w - 1 then
    decide (b.natAbs ≤ a.natAbs + a.natAbs)
  else
    true

/-- Predicate `add_cmp_abs_lt` from `src/lib.rs`: `abs(a + b) < abs(b)`, where an
overflowing `a + b` yields `false`. -/
def add_cmp_abs_lt (w : Nat) (a b : Int) : Bool :=
  match checked_add w a b with
  | none => false
  | some n => ! cmp_abs_ge n b

/-- Predicate `sub_cmp_abs_lt` from `src/lib.rs`: `abs(a - b) < abs(b)`, where an
overflowing `a - b` yields `false`. -/
def sub_cmp_abs_lt (w : Nat) (a b : Int) : Bool :=
  match checked_sub w a b with
  | none => false
  | some n => ! cmp_abs_ge n b

/-- Predicate `same_sign` from `src/lib.rs`: `(a ^ b).is_positive()`.  Bitwise
xor of two's-complement values of any common width agrees, after sign
extension, with `Int.xor` (Mathlib's infinite two's-complement xor),
so the sign test is modelled on `Int.xor` directly. -/
def same_sign (a b : Int) : Bool :=
  decide (0 < Int.xor a b)

/-- Function `checked_divide_with_rounding` from `src/lib.rs`. -/
def checked_divide_with_rounding (w : Nat) (left right : Int)
    (rounding : Rounding) : Option Int :=
  match checked_div w left right with
  | none => none
  | some q =>
    let remain := left.tmod right
    if remain = 0 then some q
    else
      some (match rounding with
      | .Floor => if same_sign left right then q else q - 1
      | .Ceiling => if same_sign left right then q + 1 else q
      | .Round =>
        if cmp_abs_half_ge w remain right then
          if same_sign left right then q + 1 else q - 1
        else q
      | .TowardsZero => q
      | .AwayFromZero => if same_sign left right then q + 1 else q - 1)

/-- The policy dispatch (`match rounding`) at the end of
`checked_divide_with_cum_error`, acting on the already-updated
accumulator `tmpsum`; returns (result, new accumulator). -/
def cum_flush (w : Nat) (left right : Int) (rounding : Rounding)
    (q tmpsum : Int) : Option Int × Int :=
  match rounding with
  | .Floor =>
    if same_sign left right then
      if cmp_abs_ge tmpsum right then (some (q + 1), tmpsum - right)
      else (some q, tmpsum)
    else
      if add_cmp_abs_lt w tmpsum right then (some (q - 1), tmpsum + right)
      else (some q, tmpsum)
  | .Ceiling =>
    if same_sign left right then
      if sub_cmp_abs_lt w tmpsum right then (some (q + 1), tmpsum - right)
      else (some q, tmpsum)
    else
      if cmp_abs_ge tmpsum right then (some (q - 1), tmpsum + right)
      else (some q, tmpsum)
  | .Round =>
    if cmp_abs_half_ge w tmpsum right then
      if same_sign left right then (some (q + 1), tmpsum - right)
      else (some (q - 1), tmpsum + right)
    else (some q, tmpsum)
  | .TowardsZero =>
    if cmp_abs_ge tmpsum right then
      if same_sign left right then (some (q + 1), tmpsum - right)
      else (some (q - 1), tmpsum + right)
    else (some q, tmpsum)
  | .AwayFromZero =>
    if same_sign left right then
      if sub_cmp_abs_lt w tmpsum right then (some (q + 1), tmpsum - right)
      else (some q, tmpsum)
    else
      if add_cmp_abs_lt w tmpsum right then (some (q - 1), tmpsum + right)
      else (some q, tmpsum)

/-- Function `checked_divide_with_cum_error` from `src/lib.rs`, returning the
pair (result, new accumulator). -/
def checked_divide_with_cum_error (w : Nat) (left right : Int)
    (rounding : Rounding) (cum_error : Int) : Option Int × Int :=
  match checked_div w left right with
  | none => (none, cum_error)
  | some q =>
    let remain := left.tmod right
    if remain = 0 then (some q, cum_error)
    else
      match checked_add w cum_error remain with
      | none =>
        if same_sign left right then
          (some (q + 1), cum_error + (remain - right))
        else
          (some (q - 1), cum_error + (remain + right))
      | some tmpsum => cum_flush w left right rounding q tmpsum

/-- Function `checked_divide` from `src/lib.rs`: dispatch on the presence of a
cumulative-error accumulator. -/
def checked_divide (w : Nat) (left right : Int) (rounding : Rounding)
    (cum_error : Option Int) : Option Int × Option Int :=
  match cum_error with
  | some c =>
    let r := checked_divide_with_cum_error w left right rounding c
    (r.1, some r.2)
  | none => (checked_divide_with_rounding w left right rounding, none)

/-- Run `checked_divide_with_cum_error` over a list of dividends with a
shared accumulator, summing the returned quotients; `none` if any call
fails. -/
def runCum (w : Nat) (d : Int) (p : Rounding) :
    List Int → Int → Option (Int × Int)
  | [], acc => some (0, acc)
  | x :: xs, acc =>
    match checked_divide_with_cum_error w x d p acc with
    | (none, _) => none
    | (some q, acc1) =>
      match runCum w d p xs acc1 with
      | none => none
      | some (sq, accF) => some (q + sq, accF)

/-- No call in the sequence takes the step-4 overflow fallback: at each
step either the remainder is zero (the accumulator addition is never
attempted) or the accumulator-plus-remainder sum is representable. -/
def fallbackFree (w : Nat) (d : Int) (p : Rounding) :
    List Int → Int → Bool
  | [], _ => true
  | x :: xs, acc =>
    (decide (x.tmod d = 0) || decide (Representable w (acc + x.tmod d))) &&
      fallbackFree w d p xs (checked_divide_with_cum_error w x d p acc).2

/-- Remainder range of a floor-rounded division: the remainder has the
divisor's sign (or is zero) and strictly smaller magnitude. -/
def FloorRem (d a : Int) : Prop :=
  (0 < d → 0 ≤ a ∧ a < d) ∧ (d < 0 → d < a ∧ a ≤ 0)

/-- Remainder range of a ceiling-rounded division: the remainder has the
sign opposite to the divisor's (or is zero) and strictly smaller
magnitude. -/
def CeilRem (d a : Int) : Prop :=
  (0 < d → -d < a ∧ a ≤ 0) ∧ (d < 0 → 0 ≤ a ∧ a < -d)

/-- Remainder range maintained by the error-feedback divider for the
sign-directed policies (`Floor` pins the accumulator to the divisor's
sign, `Ceiling` to the opposite sign); trivial for the other policies. -/
def pinnedRem (p : Rounding) (d a : Int) : Prop :=
  match p with
  | .Floor => FloorRem d a
  | .Ceiling => CeilRem d a
  | _ => True

/-- The documented post-call accumulator magnitude bound (spec §3):
strictly less than the divisor's magnitude, and at most half of it for
`Round`. -/
def accInv (p : Rounding) (d a : Int) : Prop :=
  match p with
  | .Round => 2 * a.natAbs ≤ d.natAbs
  | _ => a.natAbs < d.natAbs

instance (p : Rounding) (d a : Int) : Decidable (accInv p d a) :=
  match p with
  | .Round => inferInstanceAs (Decidable (_ ≤ _))
  | .Floor => inferInstanceAs (Decidable (_ < _))
  | .Ceiling => inferInstanceAs (Decidable (_ < _))
  | .TowardsZero => inferInstanceAs (Decidable (_ < _))
  | .AwayFromZero => inferInstanceAs (Decidable (_ < _))

/-! ### Arithmetic bridge lemmas -/

theorem Representable_iff (w : Nat) (n : Int) :
    Representable w n ↔ -(2 ^ (w - 1) : Int) ≤ n ∧ n ≤ 2 ^ (w - 1) - 1 :=
  Iff.rfl

theorem natAbs_le_of_representable (w : Nat) (n : Int)
    (h : Representable w n) : (n.natAbs : Int) ≤ 2 ^ (w - 1) := by
  rcases h with ⟨h1, h2⟩
  rcases Int.natAbs_eq n with he | he <;> simp [intMin, intMax] at h1 h2 <;> omega

theorem natAbs_tmod (x d : Int) : (x.tmod d).natAbs = x.natAbs % d.natAbs := by
  rcases x with m | m <;> rcases d with n | n <;>
    simp only [Int.tmod, Int.natAbs_neg, Int.natAbs_ofNat, Int.natAbs_negSucc,
      Nat.succ_eq_add_one] <;> rfl

theorem tmod_sign (x d : Int) :
    (0 ≤ x → 0 ≤ x.tmod d) ∧ (x ≤ 0 → x.tmod d ≤ 0) := by
  rcases x with m | m <;> rcases d with n | n
  · exact ⟨fun _ => Int.ofNat_nonneg _, fun h => by
      have hm : m = 0 := Nat.le_zero.mp (Int.ofNat_le.mp h)
      subst hm
      simp [Int.tmod]⟩
  · exact ⟨fun _ => Int.ofNat_nonneg _, fun h => by
      have hm : m = 0 := Nat.le_zero.mp (Int.ofNat_le.mp h)
      subst hm
      simp [Int.tmod]⟩
  · refine ⟨fun h => absurd (lt_of_lt_of_le (Int.negSucc_lt_zero m) h)
      (lt_irrefl _), fun _ => ?_⟩
    show -(Int.ofNat (Nat.succ m % n)) ≤ 0
    exact neg_nonpos_of_nonneg (Int.ofNat_nonneg _)
  · refine ⟨fun h => absurd (lt_of_lt_of_le (Int.negSucc_lt_zero m) h)
      (lt_irrefl _), fun _ => ?_⟩
    show -(Int.ofNat (Nat.succ m % Nat.succ n)) ≤ 0
    exact neg_nonpos_of_nonneg (Int.ofNat_nonneg _)

theorem tmod_natAbs_lt (x d : Int) (hd : d ≠ 0) :
    (x.tmod d).natAbs < d.natAbs := by
  rw [natAbs_tmod]
  exact Nat.mod_lt _ (Int.natAbs_pos.mpr hd)

theorem tdiv_tmod_eq (x d : Int) : x = d * x.tdiv d + x.tmod d :=
  (Int.tdiv_add_tmod x d).symm

theorem xor_pos_iff (a b : Int) :
    0 < Int.xor a b ↔ a ≠ b ∧ ((a < 0) ↔ (b < 0)) := by
  have hpos : ∀ k : Nat, 0 < Int.ofNat k ↔ k ≠ 0 := by
    intro k
    constructor
    · intro h he
      subst he
      exact lt_irrefl 0 h
    · intro h
      exact Int.ofNat_pos.mpr (Nat.pos_of_ne_zero h)
  rcases a with m | m <;> rcases b with n | n
  · show 0 < Int.ofNat (m ^^^ n) ↔ _
    rw [hpos, Ne, Nat.xor_eq_zero]
    have hm : ¬ (Int.ofNat m < 0) := Int.not_lt.mpr (Int.ofNat_nonneg m)
    have hn : ¬ (Int.ofNat n < 0) := Int.not_lt.mpr (Int.ofNat_nonneg n)
    constructor
    · intro h
      exact ⟨fun he => h (Int.ofNat.inj he), iff_of_false hm hn⟩
    · intro ⟨h, _⟩
      exact fun he => h (congrArg Int.ofNat he)
  · show 0 < Int.negSucc (m ^^^ n) ↔ _
    constructor
    · intro h
      exact absurd (lt_trans h (Int.negSucc_lt_zero _)) (lt_irrefl 0)
    · intro ⟨_, h⟩
      exact absurd (h.mpr (Int.negSucc_lt_zero n))
        (Int.not_lt.mpr (Int.ofNat_nonneg m))
  · show 0 < Int.negSucc (m ^^^ n) ↔ _
    constructor
    · intro h
      exact absurd (lt_trans h (Int.negSucc_lt_zero _)) (lt_irrefl 0)
    · intro ⟨_, h⟩
      exact absurd (h.mp (Int.negSucc_lt_zero m))
        (Int.not_lt.mpr (Int.ofNat_nonneg n))
  · show 0 < Int.ofNat (m ^^^ n) ↔ _
    rw [hpos, Ne, Nat.xor_eq_zero]
    constructor
    · intro h
      refine ⟨fun he => h ?_, iff_of_true (Int.negSucc_lt_zero m)
        (Int.negSucc_lt_zero n)⟩
      cases he
      rfl
    · intro ⟨h, _⟩ he
      exact h (by rw [he])

theorem same_sign_true_iff (a b : Int) (ha : a ≠ 0) (hb : b ≠ 0) (hab : a ≠ b) :
    same_sign a b = true ↔ ((0 < a ∧ 0 < b) ∨ (a < 0 ∧ b < 0)) := by
  rw [same_sign, decide_eq_true_iff, xor_pos_iff]
  constructor
  · intro ⟨_, h⟩; omega
  · intro h; exact ⟨hab, by omega⟩

theorem same_sign_false_iff (a b : Int) (ha : a ≠ 0) (hb : b ≠ 0)
    (hab : a ≠ b) :
    same_sign a b = false ↔ ((0 < a ∧ b < 0) ∨ (a < 0 ∧ 0 < b)) := by
  have h := same_sign_true_iff a b ha hb hab
  rcases hs : same_sign a b with _ | _ <;> simp [hs] at h ⊢ <;> omega

theorem cmp_abs_ge_true_iff (a b : Int) :
    cmp_abs_ge a b = true ↔ b.natAbs ≤ a.natAbs :=
  decide_eq_true_iff

theorem two_pow_pred (w : Nat) (hw : 0 < w) : (2 ^ w : Nat) = 2 * 2 ^ (w - 1) := by
  conv_lhs => rw [show w = (w - 1) + 1 by omega]
  rw [pow_succ]
  ring

theorem natCast_two_pow (k : Nat) : ((2 ^ k : Nat) : Int) = 2 ^ k := by
  push_cast
  rfl

theorem cmp_abs_half_ge_true_iff (w : Nat) (hw : 0 < w) (a b : Int)
    (hb : Representable w b) :
    cmp_abs_half_ge w a b = true ↔ b.natAbs ≤ 2 * a.natAbs := by
  have hble : (b.natAbs : Int) ≤ 2 ^ (w - 1) := natAbs_le_of_representable w b hb
  have hp := two_pow_pred w hw
  have hc := natCast_two_pow (w - 1)
  rw [cmp_abs_half_ge]
  split
  · rw [decide_eq_true_iff]
    omega
  · simp only [true_iff]
    omega

theorem add_cmp_abs_lt_true_iff (w : Nat) (a b : Int) :
    add_cmp_abs_lt w a b = true ↔
      Representable w (a + b) ∧ (a + b).natAbs < b.natAbs := by
  rw [add_cmp_abs_lt, checked_add]
  by_cases h : Representable w (a + b)
  · rw [if_pos h]
    show (! cmp_abs_ge (a + b) b) = true ↔ _
    rw [Bool.not_eq_true', cmp_abs_ge, decide_eq_false_iff_not]
    simp only [h, true_and]
    omega
  · rw [if_neg h]
    show false = true ↔ _
    simp [h]

theorem sub_cmp_abs_lt_true_iff (w : Nat) (a b : Int) :
    sub_cmp_abs_lt w a b = true ↔
      Representable w (a - b) ∧ (a - b).natAbs < b.natAbs := by
  rw [sub_cmp_abs_lt, checked_sub]
  by_cases h : Representable w (a - b)
  · rw [if_pos h]
    show (! cmp_abs_ge (a - b) b) = true ↔ _
    rw [Bool.not_eq_true', cmp_abs_ge, decide_eq_false_iff_not]
    simp only [h, true_and]
    omega
  · rw [if_neg h]
    show false = true ↔ _
    simp [h]

/-! ### Evaluation lemmas for the two dividers -/

theorem checked_div_eq_some (w : Nat) (a b : Int) (hb : b ≠ 0)
    (ho : ¬(a = intMin w ∧ b = -1)) :
    checked_div w a b = some (a.tdiv b) := by
  rw [checked_div, if_neg]
  tauto

theorem rounding_eval_exact (w : Nat) (left right : Int) (p : Rounding)
    (hd : right ≠ 0) (ho : ¬(left = intMin w ∧ right = -1))
    (hr : left.tmod right = 0) :
    checked_divide_with_rounding w left right p = some (left.tdiv right) := by
  rw [checked_divide_with_rounding, checked_div_eq_some w left right hd ho]
  show (if left.tmod right = 0 then _ else _) = _
  rw [if_pos hr]

theorem cum_eval_exact (w : Nat) (left right : Int) (p : Rounding) (acc : Int)
    (hd : right ≠ 0) (ho : ¬(left = intMin w ∧ right = -1))
    (hr : left.tmod right = 0) :
    checked_divide_with_cum_error w left right p acc =
      (some (left.tdiv right), acc) := by
  rw [checked_divide_with_cum_error, checked_div_eq_some w left right hd ho]
  show (if left.tmod right = 0 then _ else _) = _
  rw [if_pos hr]

theorem cum_eval_flush (w : Nat) (left right : Int) (p : Rounding) (acc : Int)
    (hd : right ≠ 0) (ho : ¬(left = intMin w ∧ right = -1))
    (hr : left.tmod right ≠ 0)
    (hrep : Representable w (acc + left.tmod right)) :
    checked_divide_with_cum_error w left right p acc =
      cum_flush w left right p (left.tdiv right) (acc + left.tmod right) := by
  rw [checked_divide_with_cum_error, checked_div_eq_some w left right hd ho]
  show (if left.tmod right = 0 then _ else _) = _
  rw [if_neg hr, checked_add, if_pos hrep]

theorem cum_eval_fallback (w : Nat) (left right : Int) (p : Rounding)
    (acc : Int)
    (hd : right ≠ 0) (ho : ¬(left = intMin w ∧ right = -1))
    (hr : left.tmod right ≠ 0)
    (hrep : ¬ Representable w (acc + left.tmod right)) :
    checked_divide_with_cum_error w left right p acc =
      (if same_sign left right then
        (some (left.tdiv right + 1), acc + (left.tmod right - right))
      else
        (some (left.tdiv right - 1), acc + (left.tmod right + right))) := by
  rw [checked_divide_with_cum_error, checked_div_eq_some w left right hd ho]
  show (if left.tmod right = 0 then _ else _) = _
  rw [if_neg hr, checked_add, if_neg hrep]

theorem cum_flush_fst_ne_none (w : Nat) (l r : Int) (p : Rounding)
    (q t : Int) : (cum_flush w l r p q t).1 ≠ none := by
  cases p <;> rw [cum_flush] <;> repeat' split
  all_goals simp

theorem rounding_ne_none (w : Nat) (left right : Int) (p : Rounding)
    (h : ¬(right = 0 ∨ (left = intMin w ∧ right = -1))) :
    checked_divide_with_rounding w left right p ≠ none := by
  rw [checked_divide_with_rounding, checked_div, if_neg h]
  show (if left.tmod right = 0 then _ else some _) ≠ none
  split <;> simp

theorem cum_fst_ne_none (w : Nat) (left right : Int) (p : Rounding)
    (acc : Int)
    (h : ¬(right = 0 ∨ (left = intMin w ∧ right = -1))) :
    (checked_divide_with_cum_error w left right p acc).1 ≠ none := by
  rw [checked_divide_with_cum_error, checked_div, if_neg h]
  show (if left.tmod right = 0 then _
    else match checked_add w acc (left.tmod right) with
      | none => _
      | some tmpsum => cum_flush w left right p (left.tdiv right) tmpsum).1 ≠
      none
  split
  · simp
  · rcases hca : checked_add w acc (left.tmod right) with _ | t
    · dsimp only
      split <;> simp
    · dsimp only
      exact cum_flush_fst_ne_none w left right p (left.tdiv right) t

/-! ### Step lemmas for the error-feedback divider -/

theorem rounding_eval_inexact (w : Nat) (left right : Int) (p : Rounding)
    (hd : right ≠ 0) (ho : ¬(left = intMin w ∧ right = -1))
    (hr : left.tmod right ≠ 0) :
    checked_divide_with_rounding w left right p =
      some (match p with
      | .Floor =>
        if same_sign left right then left.tdiv right else left.tdiv right - 1
      | .Ceiling =>
        if same_sign left right then left.tdiv right + 1 else left.tdiv right
      | .Round =>
        if cmp_abs_half_ge w (left.tmod right) right then
          if same_sign left right then left.tdiv right + 1
          else left.tdiv right - 1
        else left.tdiv right
      | .TowardsZero => left.tdiv right
      | .AwayFromZero =>
        if same_sign left right then left.tdiv right + 1
        else left.tdiv right - 1) := by
  rw [checked_divide_with_rounding, checked_div_eq_some w left right hd ho]
  show (if left.tmod right = 0 then _ else _) = _
  rw [if_neg hr]

theorem tmod_ne_zero_facts (x d : Int) (hx : x.tmod d ≠ 0) :
    x ≠ 0 ∧ x ≠ d := by
  constructor
  · rintro rfl
    exact hx (Int.zero_tmod d)
  · rintro rfl
    exact hx Int.tmod_self

theorem cum_some_inv (w : Nat) (x d acc : Int) (p : Rounding) (q' a' : Int)
    (h : checked_divide_with_cum_error w x d p acc = (some q', a')) :
    d ≠ 0 ∧ ¬(x = intMin w ∧ d = -1) := by
  constructor
  · rintro rfl
    rw [checked_divide_with_cum_error, checked_div, if_pos (Or.inl rfl)] at h
    exact absurd (congrArg Prod.fst h) (by simp)
  · rintro hmin
    rw [checked_divide_with_cum_error, checked_div, if_pos (Or.inr hmin)] at h
    exact absurd (congrArg Prod.fst h) (by simp)

/-- Bookkeeping identity: every successful call moves the accumulator by
exactly the amount that keeps `acc + dividend - divisor * quotient`
invariant, on every path including the overflow fallback. -/
theorem cum_bookkeeping (w : Nat) (x d acc : Int) (p : Rounding)
    (q' a' : Int)
    (h : checked_divide_with_cum_error w x d p acc = (some q', a')) :
    a' = acc + x - d * q' := by
  obtain ⟨hd0, ho⟩ := cum_some_inv w x d acc p q' a' h
  have hx := tdiv_tmod_eq x d
  have hexp1 : d * (x.tdiv d + 1) = d * x.tdiv d + d := by ring
  have hexp2 : d * (x.tdiv d - 1) = d * x.tdiv d - d := by ring
  by_cases hr0 : x.tmod d = 0
  · rw [cum_eval_exact w x d p acc hd0 ho hr0] at h
    simp only [Prod.mk.injEq, Option.some.injEq] at h
    obtain ⟨h1, h2⟩ := h
    subst h1
    subst h2
    omega
  · by_cases hrep : Representable w (acc + x.tmod d)
    · rw [cum_eval_flush w x d p acc hd0 ho hr0 hrep] at h
      cases p <;> rw [cum_flush] at h <;> repeat' split at h
      all_goals
        simp only [Prod.mk.injEq, Option.some.injEq] at h
      all_goals
        obtain ⟨h1, h2⟩ := h
      all_goals subst h1
      all_goals subst h2
      all_goals omega
    · rw [cum_eval_fallback w x d p acc hd0 ho hr0 hrep] at h
      split at h <;>
        simp only [Prod.mk.injEq, Option.some.injEq] at h <;>
        obtain ⟨h1, h2⟩ := h <;>
        subst h1 <;>
        subst h2 <;>
        omega

/-- One successful, fallback-free call preserves the documented
accumulator magnitude bound, for every policy. -/
theorem cum_step_accInv (w : Nat) (hw : 0 < w) (x d acc : Int)
    (p : Rounding) (q' a' : Int) (hd : Representable w d)
    (hinv : accInv p d acc)
    (hnf : x.tmod d = 0 ∨ Representable w (acc + x.tmod d))
    (h : checked_divide_with_cum_error w x d p acc = (some q', a')) :
    accInv p d a' := by
  obtain ⟨hd0, ho⟩ := cum_some_inv w x d acc p q' a' h
  by_cases hr0 : x.tmod d = 0
  · rw [cum_eval_exact w x d p acc hd0 ho hr0] at h
    simp only [Prod.mk.injEq, Option.some.injEq] at h
    obtain ⟨h1, h2⟩ := h
    subst h2
    exact hinv
  · have hrep : Representable w (acc + x.tmod d) := hnf.resolve_left hr0
    rw [cum_eval_flush w x d p acc hd0 ho hr0 hrep] at h
    obtain ⟨hx0, hxd⟩ := tmod_ne_zero_facts x d hr0
    have hts := tmod_sign x d
    have hltr := tmod_natAbs_lt x d hd0
    have hiff := same_sign_true_iff x d hx0 hd0 hxd
    have hifff := same_sign_false_iff x d hx0 hd0 hxd
    have hdabs : (d.natAbs : Int) ≤ 2 ^ (w - 1) :=
      natAbs_le_of_representable w d hd
    have hp2 : (2 ^ w : Nat) = 2 * 2 ^ (w - 1) := two_pow_pred w hw
    have hc := natCast_two_pow (w - 1)
    rw [Representable_iff] at hrep
    cases p
    -- Round
    simp only [accInv] at hinv ⊢
    rw [cum_flush] at h
    by_cases hh : cmp_abs_half_ge w (acc + x.tmod d) d = true
    · rw [if_pos hh] at h
      rw [cmp_abs_half_ge_true_iff w hw _ d hd] at hh
      by_cases hss : same_sign x d = true
      · rw [if_pos hss] at h
        rw [hiff] at hss
        simp only [Prod.mk.injEq, Option.some.injEq] at h
        obtain ⟨h1, h2⟩ := h
        subst h2
        omega
      · rw [if_neg hss] at h
        have hssf : same_sign x d = false := by
          rcases hv : same_sign x d with _ | _
          · rfl
          · exact absurd hv hss
        rw [hifff] at hssf
        simp only [Prod.mk.injEq, Option.some.injEq] at h
        obtain ⟨h1, h2⟩ := h
        subst h2
        omega
    · rw [if_neg hh] at h
      rw [cmp_abs_half_ge_true_iff w hw _ d hd] at hh
      simp only [Prod.mk.injEq, Option.some.injEq] at h
      obtain ⟨h1, h2⟩ := h
      subst h2
      omega
    -- Floor
    simp only [accInv] at hinv ⊢
    rw [cum_flush] at h
    by_cases hss : same_sign x d = true
    · rw [if_pos hss] at h
      rw [hiff] at hss
      by_cases hge : cmp_abs_ge (acc + x.tmod d) d = true
      · rw [if_pos hge] at h
        rw [cmp_abs_ge_true_iff] at hge
        simp only [Prod.mk.injEq, Option.some.injEq] at h
        obtain ⟨h1, h2⟩ := h
        subst h2
        omega
      · rw [if_neg hge] at h
        rw [cmp_abs_ge_true_iff] at hge
        simp only [Prod.mk.injEq, Option.some.injEq] at h
        obtain ⟨h1, h2⟩ := h
        subst h2
        omega
    · rw [if_neg hss] at h
      have hssf : same_sign x d = false := by
        rcases hv : same_sign x d with _ | _
        · rfl
        · exact absurd hv hss
      rw [hifff] at hssf
      by_cases hlt : add_cmp_abs_lt w (acc + x.tmod d) d = true
      · rw [if_pos hlt] at h
        rw [add_cmp_abs_lt_true_iff, Representable_iff] at hlt
        simp only [Prod.mk.injEq, Option.some.injEq] at h
        obtain ⟨h1, h2⟩ := h
        subst h2
        omega
      · rw [if_neg hlt] at h
        rw [add_cmp_abs_lt_true_iff, Representable_iff] at hlt
        simp only [Prod.mk.injEq, Option.some.injEq] at h
        obtain ⟨h1, h2⟩ := h
        subst h2
        omega
    -- Ceiling
    simp only [accInv] at hinv ⊢
    rw [cum_flush] at h
    by_cases hss : same_sign x d = true
    · rw [if_pos hss] at h
      rw [hiff] at hss
      by_cases hlt : sub_cmp_abs_lt w (acc + x.tmod d) d = true
      · rw [if_pos hlt] at h
        rw [sub_cmp_abs_lt_true_iff, Representable_iff] at hlt
        simp only [Prod.mk.injEq, Option.some.injEq] at h
        obtain ⟨h1, h2⟩ := h
        subst h2
        omega
      · rw [if_neg hlt] at h
        rw [sub_cmp_abs_lt_true_iff, Representable_iff] at hlt
        simp only [Prod.mk.injEq, Option.some.injEq] at h
        obtain ⟨h1, h2⟩ := h
        subst h2
        omega
    · rw [if_neg hss] at h
      have hssf : same_sign x d = false := by
        rcases hv : same_sign x d with _ | _
        · rfl
        · exact absurd hv hss
      rw [hifff] at hssf
      by_cases hge : cmp_abs_ge (acc + x.tmod d) d = true
      · rw [if_pos hge] at h
        rw [cmp_abs_ge_true_iff] at hge
        simp only [Prod.mk.injEq, Option.some.injEq] at h
        obtain ⟨h1, h2⟩ := h
        subst h2
        omega
      · rw [if_neg hge] at h
        rw [cmp_abs_ge_true_iff] at hge
        simp only [Prod.mk.injEq, Option.some.injEq] at h
        obtain ⟨h1, h2⟩ := h
        subst h2
        omega
    -- TowardsZero
    simp only [accInv] at hinv ⊢
    rw [cum_flush] at h
    by_cases hge : cmp_abs_ge (acc + x.tmod d) d = true
    · rw [if_pos hge] at h
      rw [cmp_abs_ge_true_iff] at hge
      by_cases hss : same_sign x d = true
      · rw [if_pos hss] at h
        rw [hiff] at hss
        simp only [Prod.mk.injEq, Option.some.injEq] at h
        obtain ⟨h1, h2⟩ := h
        subst h2
        omega
      · rw [if_neg hss] at h
        have hssf : same_sign x d = false := by
          rcases hv : same_sign x d with _ | _
          · rfl
          · exact absurd hv hss
        rw [hifff] at hssf
        simp only [Prod.mk.injEq, Option.some.injEq] at h
        obtain ⟨h1, h2⟩ := h
        subst h2
        omega
    · rw [if_neg hge] at h
      rw [cmp_abs_ge_true_iff] at hge
      simp only [Prod.mk.injEq, Option.some.injEq] at h
      obtain ⟨h1, h2⟩ := h
      subst h2
      omega
    -- AwayFromZero
    simp only [accInv] at hinv ⊢
    rw [cum_flush] at h
    by_cases hss : same_sign x d = true
    · rw [if_pos hss] at h
      rw [hiff] at hss
      by_cases hlt : sub_cmp_abs_lt w (acc + x.tmod d) d = true
      · rw [if_pos hlt] at h
        rw [sub_cmp_abs_lt_true_iff, Representable_iff] at hlt
        simp only [Prod.mk.injEq, Option.some.injEq] at h
        obtain ⟨h1, h2⟩ := h
        subst h2
        omega
      · rw [if_neg hlt] at h
        rw [sub_cmp_abs_lt_true_iff, Representable_iff] at hlt
        simp only [Prod.mk.injEq, Option.some.injEq] at h
        obtain ⟨h1, h2⟩ := h
        subst h2
        omega
    · rw [if_neg hss] at h
      have hssf : same_sign x d = false := by
        rcases hv : same_sign x d with _ | _
        · rfl
        · exact absurd hv hss
      rw [hifff] at hssf
      by_cases hlt : add_cmp_abs_lt w (acc + x.tmod d) d = true
      · rw [if_pos hlt] at h
        rw [add_cmp_abs_lt_true_iff, Representable_iff] at hlt
        simp only [Prod.mk.injEq, Option.some.injEq] at h
        obtain ⟨h1, h2⟩ := h
        subst h2
        omega
      · rw [if_neg hlt] at h
        rw [add_cmp_abs_lt_true_iff, Representable_iff] at hlt
        simp only [Prod.mk.injEq, Option.some.injEq] at h
        obtain ⟨h1, h2⟩ := h
        subst h2
        omega

/-- Running a fallback-free sequence of successful calls preserves the
accumulator magnitude bound. -/
theorem runCum_accInv (w : Nat) (hw : 0 < w) (d : Int) (p : Rounding)
    (hd : Representable w d) :
    ∀ (xs : List Int) (acc : Int), accInv p d acc →
      fallbackFree w d p xs acc = true →
      ∀ sq accF, runCum w d p xs acc = some (sq, accF) →
      accInv p d accF := by
  intro xs
  induction xs with
  | nil =>
    intro acc hacc hff sq accF hrun
    rw [runCum] at hrun
    simp only [Option.some.injEq, Prod.mk.injEq] at hrun
    obtain ⟨h1, h2⟩ := hrun
    subst h2
    exact hacc
  | cons x xs ih =>
    intro acc hacc hff sq accF hrun
    rw [runCum] at hrun
    rw [fallbackFree, Bool.and_eq_true] at hff
    obtain ⟨hff1, hff2⟩ := hff
    simp only [Bool.or_eq_true, decide_eq_true_iff] at hff1
    rcases hc : checked_divide_with_cum_error w x d p acc with ⟨r1, acc1⟩
    rw [hc] at hrun hff2
    rcases r1 with _ | q
    · dsimp only at hrun
      exact absurd hrun (by simp)
    all_goals dsimp only at hrun
    · have hacc1 : accInv p d acc1 :=
        cum_step_accInv w hw x d acc p q acc1 hd hacc hff1 hc
      rcases hr2 : runCum w d p xs acc1 with _ | ⟨sq2, accF2⟩
      · rw [hr2] at hrun
        exact absurd hrun (by simp)
      · rw [hr2] at hrun
        simp only [Option.some.injEq, Prod.mk.injEq] at hrun
        obtain ⟨h1, h2⟩ := hrun
        subst h2
        exact ih acc1 hacc1 hff2 sq2 _ hr2

/-- One successful, fallback-free call preserves the sign-pinned
remainder range for `Floor` and `Ceiling` (trivially for the rest). -/
theorem cum_step_pinnedRem (w : Nat) (hw : 0 < w) (x d acc : Int)
    (p : Rounding) (q' a' : Int) (hd : Representable w d)
    (hinv : pinnedRem p d acc)
    (hnf : x.tmod d = 0 ∨ Representable w (acc + x.tmod d))
    (h : checked_divide_with_cum_error w x d p acc = (some q', a')) :
    pinnedRem p d a' := by
  obtain ⟨hd0, ho⟩ := cum_some_inv w x d acc p q' a' h
  by_cases hr0 : x.tmod d = 0
  · rw [cum_eval_exact w x d p acc hd0 ho hr0] at h
    simp only [Prod.mk.injEq, Option.some.injEq] at h
    obtain ⟨h1, h2⟩ := h
    subst h2
    exact hinv
  · have hrep : Representable w (acc + x.tmod d) := hnf.resolve_left hr0
    rw [cum_eval_flush w x d p acc hd0 ho hr0 hrep] at h
    obtain ⟨hx0, hxd⟩ := tmod_ne_zero_facts x d hr0
    have hts := tmod_sign x d
    have hltr := tmod_natAbs_lt x d hd0
    have hiff := same_sign_true_iff x d hx0 hd0 hxd
    have hifff := same_sign_false_iff x d hx0 hd0 hxd
    have hdabs : (d.natAbs : Int) ≤ 2 ^ (w - 1) :=
      natAbs_le_of_representable w d hd
    have hp2 : (2 ^ w : Nat) = 2 * 2 ^ (w - 1) := two_pow_pred w hw
    have hc := natCast_two_pow (w - 1)
    rw [Representable_iff] at hrep
    cases p
    -- Round
    simp only [pinnedRem]
    -- Floor
    simp only [pinnedRem, FloorRem] at hinv ⊢
    rw [cum_flush] at h
    by_cases hss : same_sign x d = true
    · rw [if_pos hss] at h
      rw [hiff] at hss
      by_cases hge : cmp_abs_ge (acc + x.tmod d) d = true
      · rw [if_pos hge] at h
        rw [cmp_abs_ge_true_iff] at hge
        simp only [Prod.mk.injEq, Option.some.injEq] at h
        obtain ⟨h1, h2⟩ := h
        subst h2
        omega
      · rw [if_neg hge] at h
        rw [cmp_abs_ge_true_iff] at hge
        simp only [Prod.mk.injEq, Option.some.injEq] at h
        obtain ⟨h1, h2⟩ := h
        subst h2
        omega
    · rw [if_neg hss] at h
      have hssf : same_sign x d = false := by
        rcases hv : same_sign x d with _ | _
        · rfl
        · exact absurd hv hss
      rw [hifff] at hssf
      by_cases hlt : add_cmp_abs_lt w (acc + x.tmod d) d = true
      · rw [if_pos hlt] at h
        rw [add_cmp_abs_lt_true_iff, Representable_iff] at hlt
        simp only [Prod.mk.injEq, Option.some.injEq] at h
        obtain ⟨h1, h2⟩ := h
        subst h2
        omega
      · rw [if_neg hlt] at h
        rw [add_cmp_abs_lt_true_iff, Representable_iff] at hlt
        simp only [Prod.mk.injEq, Option.some.injEq] at h
        obtain ⟨h1, h2⟩ := h
        subst h2
        omega
    -- Ceiling
    simp only [pinnedRem, CeilRem] at hinv ⊢
    rw [cum_flush] at h
    by_cases hss : same_sign x d = true
    · rw [if_pos hss] at h
      rw [hiff] at hss
      by_cases hlt : sub_cmp_abs_lt w (acc + x.tmod d) d = true
      · rw [if_pos hlt] at h
        rw [sub_cmp_abs_lt_true_iff, Representable_iff] at hlt
        simp only [Prod.mk.injEq, Option.some.injEq] at h
        obtain ⟨h1, h2⟩ := h
        subst h2
        omega
      · rw [if_neg hlt] at h
        rw [sub_cmp_abs_lt_true_iff, Representable_iff] at hlt
        simp only [Prod.mk.injEq, Option.some.injEq] at h
        obtain ⟨h1, h2⟩ := h
        subst h2
        omega
    · rw [if_neg hss] at h
      have hssf : same_sign x d = false := by
        rcases hv : same_sign x d with _ | _
        · rfl
        · exact absurd hv hss
      rw [hifff] at hssf
      by_cases hge : cmp_abs_ge (acc + x.tmod d) d = true
      · rw [if_pos hge] at h
        rw [cmp_abs_ge_true_iff] at hge
        simp only [Prod.mk.injEq, Option.some.injEq] at h
        obtain ⟨h1, h2⟩ := h
        subst h2
        omega
      · rw [if_neg hge] at h
        rw [cmp_abs_ge_true_iff] at hge
        simp only [Prod.mk.injEq, Option.some.injEq] at h
        obtain ⟨h1, h2⟩ := h
        subst h2
        omega
    -- TowardsZero
    simp only [pinnedRem]
    -- AwayFromZero
    simp only [pinnedRem]

/-- Running a fallback-free sequence of successful calls preserves the
sign-pinned remainder range. -/
theorem runCum_pinnedRem (w : Nat) (hw : 0 < w) (d : Int) (p : Rounding)
    (hd : Representable w d) :
    ∀ (xs : List Int) (acc : Int), pinnedRem p d acc →
      fallbackFree w d p xs acc = true →
      ∀ sq accF, runCum w d p xs acc = some (sq, accF) →
      pinnedRem p d accF := by
  intro xs
  induction xs with
  | nil =>
    intro acc hacc hff sq accF hrun
    rw [runCum] at hrun
    simp only [Option.some.injEq, Prod.mk.injEq] at hrun
    obtain ⟨h1, h2⟩ := hrun
    subst h2
    exact hacc
  | cons x xs ih =>
    intro acc hacc hff sq accF hrun
    rw [runCum] at hrun
    rw [fallbackFree, Bool.and_eq_true] at hff
    obtain ⟨hff1, hff2⟩ := hff
    simp only [Bool.or_eq_true, decide_eq_true_iff] at hff1
    rcases hc : checked_divide_with_cum_error w x d p acc with ⟨r1, acc1⟩
    rw [hc] at hrun hff2
    rcases r1 with _ | q
    · dsimp only at hrun
      exact absurd hrun (by simp)
    all_goals dsimp only at hrun
    · have hacc1 : pinnedRem p d acc1 :=
        cum_step_pinnedRem w hw x d acc p q acc1 hd hacc hff1 hc
      rcases hr2 : runCum w d p xs acc1 with _ | ⟨sq2, accF2⟩
      · rw [hr2] at hrun
        exact absurd hrun (by simp)
      · rw [hr2] at hrun
        simp only [Option.some.injEq, Prod.mk.injEq] at hrun
        obtain ⟨h1, h2⟩ := hrun
        subst h2
        exact ih acc1 hacc1 hff2 sq2 _ hr2

/-- The bookkeeping identity telescopes over a run: the final
accumulator records exactly the aggregate dividend left undistributed
by the returned quotients. -/
theorem runCum_bookkeeping (w : Nat) (d : Int) (p : Rounding) :
    ∀ (xs : List Int) (acc sq accF : Int),
      runCum w d p xs acc = some (sq, accF) →
      accF = acc + xs.sum - d * sq := by
  intro xs
  induction xs with
  | nil =>
    intro acc sq accF hrun
    rw [runCum] at hrun
    simp only [Option.some.injEq, Prod.mk.injEq] at hrun
    obtain ⟨h1, h2⟩ := hrun
    subst h1
    subst h2
    simp
  | cons x xs ih =>
    intro acc sq accF hrun
    rw [runCum] at hrun
    rcases hc : checked_divide_with_cum_error w x d p acc with ⟨r1, acc1⟩
    rw [hc] at hrun
    rcases r1 with _ | q
    · dsimp only at hrun
      exact absurd hrun (by simp)
    all_goals dsimp only at hrun
    · rcases hr2 : runCum w d p xs acc1 with _ | ⟨sq2, accF2⟩
      · rw [hr2] at hrun
        exact absurd hrun (by simp)
      · rw [hr2] at hrun
        simp only [Option.some.injEq, Prod.mk.injEq] at hrun
        obtain ⟨h1, h2⟩ := hrun
        subst h1
        subst h2
        have hstep := cum_bookkeeping w x d acc p q acc1 hc
        have hrest := ih acc1 sq2 accF2 hr2
        have hmul : d * (q + sq2) = d * q + d * sq2 := by ring
        rw [List.sum_cons]
        omega

/-- The stateless divider's result lies in the sign-pinned remainder
range for `Floor` and `Ceiling`. -/
theorem rounding_pinnedRem (w : Nat) (S d Q : Int) (p : Rounding)
    (h : checked_divide_with_rounding w S d p = some Q) :
    pinnedRem p d (S - d * Q) := by
  have hd0 : d ≠ 0 := by
    rintro rfl
    rw [checked_divide_with_rounding, checked_div, if_pos (Or.inl rfl)] at h
    cases h
  have ho : ¬(S = intMin w ∧ d = -1) := by
    rintro hmin
    rw [checked_divide_with_rounding, checked_div, if_pos (Or.inr hmin)] at h
    cases h
  have hx := tdiv_tmod_eq S d
  have hexp1 : d * (S.tdiv d + 1) = d * S.tdiv d + d := by ring
  have hexp2 : d * (S.tdiv d - 1) = d * S.tdiv d - d := by ring
  have hts := tmod_sign S d
  by_cases hr0 : S.tmod d = 0
  · rw [rounding_eval_exact w S d p hd0 ho hr0] at h
    simp only [Option.some.injEq] at h
    subst h
    cases p <;> simp only [pinnedRem, FloorRem, CeilRem] <;> omega
  · have hltr := tmod_natAbs_lt S d hd0
    rw [rounding_eval_inexact w S d p hd0 ho hr0] at h
    obtain ⟨hx0, hxd⟩ := tmod_ne_zero_facts S d hr0
    have hiff := same_sign_true_iff S d hx0 hd0 hxd
    have hifff := same_sign_false_iff S d hx0 hd0 hxd
    simp only [Option.some.injEq] at h
    cases p
    -- Round
    simp only [pinnedRem]
    -- Floor
    dsimp only at h
    by_cases hss : same_sign S d = true
    · rw [if_pos hss] at h
      rw [hiff] at hss
      subst h
      simp only [pinnedRem, FloorRem]
      omega
    · rw [if_neg hss] at h
      have hssf : same_sign S d = false := by
        rcases hv : same_sign S d with _ | _
        · rfl
        · exact absurd hv hss
      rw [hifff] at hssf
      subst h
      simp only [pinnedRem, FloorRem]
      omega
    -- Ceiling
    dsimp only at h
    by_cases hss : same_sign S d = true
    · rw [if_pos hss] at h
      rw [hiff] at hss
      subst h
      simp only [pinnedRem, CeilRem]
      omega
    · rw [if_neg hss] at h
      have hssf : same_sign S d = false := by
        rcases hv : same_sign S d with _ | _
        · rfl
        · exact absurd hv hss
      rw [hifff] at hssf
      subst h
      simp only [pinnedRem, CeilRem]
      omega
    -- TowardsZero
    simp only [pinnedRem]
    -- AwayFromZero
    simp only [pinnedRem]

/-- Two integers in the same sign-pinned remainder range that differ by
a multiple of the divisor are equal. -/
theorem pinnedRem_unique (p : Rounding) (hp : p = .Floor ∨ p = .Ceiling)
    (d A1 A2 k : Int) (hd0 : d ≠ 0) (h1 : pinnedRem p d A1)
    (h2 : pinnedRem p d A2) (hk : A1 - A2 = d * k) : A1 = A2 := by
  by_cases hk0 : k = 0
  · subst hk0
    omega
  · exfalso
    have h3 : d.natAbs ≤ (d * k).natAbs := by
      rw [Int.natAbs_mul]
      exact Nat.le_mul_of_pos_right _ (Int.natAbs_pos.mpr hk0)
    have h4 : d.natAbs ≤ (A1 - A2).natAbs := by
      rw [hk]
      exact h3
    rcases hp with rfl | rfl <;>
      simp only [pinnedRem, FloorRem, CeilRem] at h1 h2 <;>
      omega

/-! ### C3: accumulator magnitude invariant -/

/-- C3: starting from accumulator 0, any fallback-free sequence of
successful calls with fixed divisor and policy leaves the accumulator
strictly smaller in magnitude than the divisor for `Floor`, `Ceiling`,
`TowardsZero` and `AwayFromZero`, and at most half the divisor's
magnitude for `Round` (applies after every call, since every prefix is
such a sequence). -/
theorem accumulator_invariant (w : Nat) (hw : 0 < w) (d : Int)
    (p : Rounding) (hd : Representable w d) (hd0 : d ≠ 0)
    (xs : List Int) (hff : fallbackFree w d p xs 0 = true)
    (sq accF : Int) (hrun : runCum w d p xs 0 = some (sq, accF)) :
    (p = .Round → 2 * accF.natAbs ≤ d.natAbs) ∧
    (p ≠ .Round → accF.natAbs < d.natAbs) := by
  have hdpos : 0 < d.natAbs := Int.natAbs_pos.mpr hd0
  have h0 : accInv p d 0 := by
    cases p <;> simp only [accInv, Int.natAbs_zero] <;> omega
  have hres := runCum_accInv w hw d p hd xs 0 h0 hff sq accF hrun
  cases p <;> simp only [accInv] at hres
  · exact ⟨fun _ => hres, fun hp => absurd rfl hp⟩
  all_goals exact ⟨fun hp => absurd hp (by decide), fun _ => hres⟩

/-- Witness for C3 at `w = 32`, `d = 3`, `p = Round`,
`xs = [20, 20, 20]`. -/
theorem accumulator_invariant_witness :
    (0 < 32 ∧ Representable 32 3 ∧ (3 : Int) ≠ 0 ∧
      fallbackFree 32 3 .Round [20, 20, 20] 0 = true ∧
      runCum 32 3 .Round [20, 20, 20] 0 = some (20, 0)) ∧
    ((Rounding.Round = .Round → 2 * (0 : Int).natAbs ≤ (3 : Int).natAbs) ∧
     (Rounding.Round ≠ .Round → (0 : Int).natAbs < (3 : Int).natAbs)) :=
  ⟨⟨by decide, by decide, by decide, by decide, by decide⟩,
    accumulator_invariant 32 (by decide) 3 .Round (by decide) (by decide)
      [20, 20, 20] (by decide) 20 0 (by decide)⟩

/-! ### C1: aggregate consistency -/

/-- C1 counterexample: the claimed aggregate identity fails as stated,
in each case with the shared accumulator starting at 0, every call
succeeding, no step-4 overflow fallback, and a representable dividend
sum.  On mixed-sign sequences it fails for `TowardsZero` (divisor 3,
dividends 2, -4: quotient sum -1, single-shot 0), for `AwayFromZero`
(divisor 3, dividends 1, -2: quotient sum 0, single-shot -1), and for
`Round` (divisor 4, dividends 2, -8: a tie resolved by the sign of the
dividend, not of the sum: quotient sum -1, single-shot -2); and for
every policy, here `Floor` at width 8, the single-shot division of the
sum can fail outright (divisor -1, dividends -100, -28: the sum -128
is the most negative value, its quotient sum 128 matches no
single-shot result). -/
theorem aggregate_claim_counterexample :
    (runCum 32 3 .TowardsZero [2, -4] 0 = some (-1, 1) ∧
     fallbackFree 32 3 .TowardsZero [2, -4] 0 = true ∧
     Representable 32 ([2, -4] : List Int).sum ∧
     checked_divide_with_rounding 32 ([2, -4] : List Int).sum 3
       .TowardsZero = some 0 ∧ (-1 : Int) ≠ 0) ∧
    (runCum 32 3 .AwayFromZero [1, -2] 0 = some (0, -1) ∧
     fallbackFree 32 3 .AwayFromZero [1, -2] 0 = true ∧
     Representable 32 ([1, -2] : List Int).sum ∧
     checked_divide_with_rounding 32 ([1, -2] : List Int).sum 3
       .AwayFromZero = some (-1) ∧ (0 : Int) ≠ -1) ∧
    (runCum 32 4 .Round [2, -8] 0 = some (-1, -2) ∧
     fallbackFree 32 4 .Round [2, -8] 0 = true ∧
     Representable 32 ([2, -8] : List Int).sum ∧
     checked_divide_with_rounding 32 ([2, -8] : List Int).sum 4
       .Round = some (-2) ∧ (-1 : Int) ≠ -2) ∧
    (runCum 8 (-1) .Floor [-100, -28] 0 = some (128, 0) ∧
     fallbackFree 8 (-1) .Floor [-100, -28] 0 = true ∧
     Representable 8 ([-100, -28] : List Int).sum ∧
     checked_divide_with_rounding 8 ([-100, -28] : List Int).sum (-1)
       .Floor = none) := by
  decide

/-- C1 amended: with the policy restricted to `Floor` or `Ceiling`, and
provided the aggregate division itself succeeds, running the
error-feedback divider over any dividend sequence with a shared
accumulator starting at 0 — every call succeeding and no step taking
the step-4 overflow fallback — yields quotients whose sum equals the
single-shot quotient of the dividend sum, and the final accumulator
equals the dividend sum minus divisor times quotient sum.  (The
original claim's unrestricted policy quantifier fails on mixed-sign
sequences for the other three policies.) -/
theorem aggregate_consistency (w : Nat) (hw : 0 < w) (d : Int)
    (p : Rounding) (hp : p = .Floor ∨ p = .Ceiling)
    (hd : Representable w d) (xs : List Int)
    (hxs : ∀ x ∈ xs, Representable w x)
    (hsum : Representable w xs.sum)
    (hff : fallbackFree w d p xs 0 = true)
    (sq accF : Int) (hrun : runCum w d p xs 0 = some (sq, accF))
    (Q : Int) (hQ : checked_divide_with_rounding w xs.sum d p = some Q) :
    sq = Q ∧ accF = xs.sum - d * sq := by
  have hd0 : d ≠ 0 := by
    rintro rfl
    rw [checked_divide_with_rounding, checked_div, if_pos (Or.inl rfl)] at hQ
    cases hQ
  have hbk := runCum_bookkeeping w d p xs 0 sq accF hrun
  have haccF : accF = xs.sum - d * sq := by omega
  have h0 : pinnedRem p d 0 := by
    rcases hp with rfl | rfl <;>
      simp only [pinnedRem, FloorRem, CeilRem] <;> omega
  have hrem1 : pinnedRem p d accF :=
    runCum_pinnedRem w hw d p hd xs 0 h0 hff sq accF hrun
  have hrem2 : pinnedRem p d (xs.sum - d * Q) :=
    rounding_pinnedRem w xs.sum d Q p hQ
  have heq : accF = xs.sum - d * Q := by
    refine pinnedRem_unique p hp d accF (xs.sum - d * Q) (Q - sq) hd0 hrem1
      hrem2 ?_
    rw [haccF]
    ring
  constructor
  · have hdd : d * sq = d * Q := by omega
    exact mul_left_cancel₀ hd0 hdd
  · exact haccF

/-- Witness for the amended C1 at `w = 32`, `d = 3`, `p = Floor`,
`xs = [20, 20, 20]`. -/
theorem aggregate_consistency_witness :
    (fallbackFree 32 3 .Floor [20, 20, 20] 0 = true ∧
     runCum 32 3 .Floor [20, 20, 20] 0 = some (20, 0) ∧
     checked_divide_with_rounding 32 ([20, 20, 20] : List Int).sum 3
       .Floor = some 20) ∧
    ((20 : Int) = 20 ∧ (0 : Int) = ([20, 20, 20] : List Int).sum - 3 * 20) :=
  ⟨⟨by decide, by decide, by decide⟩,
    aggregate_consistency 32 (by decide) 3 .Floor (Or.inl rfl) (by decide)
      [20, 20, 20] (by decide) (by decide) (by decide) 20 0 (by decide) 20
      (by decide)⟩

/-! ### C2: stateless rounding table -/

/-- C2: for a representable quotient, the stateless divider computes the
truncating quotient `q` and remainder `r`; when `r = 0` it returns `q`
for every policy, and otherwise adjusts `q` per policy exactly as the
table states, with `Round` ties (`2|r| = |divisor|`) rounding away from
zero. -/
theorem rounding_table (w : Nat) (hw : 0 < w) (left right : Int)
    (hl : Representable w left) (hr : Representable w right)
    (hd : right ≠ 0) (ho : ¬(left = intMin w ∧ right = -1)) :
    left.tmod right = left - left.tdiv right * right ∧
    (left.tmod right = 0 →
      ∀ p, checked_divide_with_rounding w left right p =
        some (left.tdiv right)) ∧
    (left.tmod right ≠ 0 →
      checked_divide_with_rounding w left right .TowardsZero =
        some (left.tdiv right) ∧
      checked_divide_with_rounding w left right .Floor =
        some (if (0 < left ∧ 0 < right) ∨ (left < 0 ∧ right < 0) then
          left.tdiv right else left.tdiv right - 1) ∧
      checked_divide_with_rounding w left right .Ceiling =
        some (if (0 < left ∧ 0 < right) ∨ (left < 0 ∧ right < 0) then
          left.tdiv right + 1 else left.tdiv right) ∧
      checked_divide_with_rounding w left right .AwayFromZero =
        some (if (0 < left ∧ 0 < right) ∨ (left < 0 ∧ right < 0) then
          left.tdiv right + 1 else left.tdiv right - 1) ∧
      checked_divide_with_rounding w left right .Round =
        some (if right.natAbs ≤ 2 * (left.tmod right).natAbs then
          (if (0 < left ∧ 0 < right) ∨ (left < 0 ∧ right < 0) then
            left.tdiv right + 1 else left.tdiv right - 1)
        else left.tdiv right)) := by
  refine ⟨?_, fun hmr p => rounding_eval_exact w left right p hd ho hmr,
    fun hmr => ?_⟩
  · have h := tdiv_tmod_eq left right
    have h2 := mul_comm right (left.tdiv right)
    omega
  obtain ⟨hx0, hxd⟩ := tmod_ne_zero_facts left right hmr
  have hiff := same_sign_true_iff left right hx0 hd hxd
  have hhalf := cmp_abs_half_ge_true_iff w hw (left.tmod right) right hr
  by_cases hp : (0 < left ∧ 0 < right) ∨ (left < 0 ∧ right < 0)
  · have hss : same_sign left right = true := hiff.mpr hp
    refine ⟨rounding_eval_inexact w left right _ hd ho hmr, ?_, ?_, ?_, ?_⟩ <;>
      rw [rounding_eval_inexact w left right _ hd ho hmr] <;>
      by_cases hhp : right.natAbs ≤ 2 * (left.tmod right).natAbs <;>
      simp [hss, hp, hhp, hhalf.mpr, Bool.not_eq_true, hhalf]
  · have hss : same_sign left right = false := by
      rcases h' : same_sign left right with _ | _
      · rfl
      · exact absurd (hiff.mp h') hp
    refine ⟨rounding_eval_inexact w left right _ hd ho hmr, ?_, ?_, ?_, ?_⟩ <;>
      rw [rounding_eval_inexact w left right _ hd ho hmr] <;>
      by_cases hhp : right.natAbs ≤ 2 * (left.tmod right).natAbs <;>
      simp [hss, hp, hhp, hhalf.mpr, Bool.not_eq_true, hhalf]

/-- Witness for C2 at `w = 32`, `left = -7`, `right = 2` (a `Round`
tie with different signs). -/
theorem rounding_table_witness :
    (0 < 32 ∧ Representable 32 (-7) ∧ Representable 32 2 ∧ (2 : Int) ≠ 0 ∧
      ¬((-7 : Int) = intMin 32 ∧ (2 : Int) = -1)) ∧
    ((-7 : Int).tmod 2 = -7 - (-7 : Int).tdiv 2 * 2 ∧
     ((-7 : Int).tmod 2 = 0 →
       ∀ p, checked_divide_with_rounding 32 (-7) 2 p =
         some ((-7 : Int).tdiv 2)) ∧
     ((-7 : Int).tmod 2 ≠ 0 →
       checked_divide_with_rounding 32 (-7) 2 .TowardsZero =
         some ((-7 : Int).tdiv 2) ∧
       checked_divide_with_rounding 32 (-7) 2 .Floor =
         some (if (0 < (-7 : Int) ∧ 0 < (2 : Int)) ∨
             ((-7 : Int) < 0 ∧ (2 : Int) < 0) then
           (-7 : Int).tdiv 2 else (-7 : Int).tdiv 2 - 1) ∧
       checked_divide_with_rounding 32 (-7) 2 .Ceiling =
         some (if (0 < (-7 : Int) ∧ 0 < (2 : Int)) ∨
             ((-7 : Int) < 0 ∧ (2 : Int) < 0) then
           (-7 : Int).tdiv 2 + 1 else (-7 : Int).tdiv 2) ∧
       checked_divide_with_rounding 32 (-7) 2 .AwayFromZero =
         some (if (0 < (-7 : Int) ∧ 0 < (2 : Int)) ∨
             ((-7 : Int) < 0 ∧ (2 : Int) < 0) then
           (-7 : Int).tdiv 2 + 1 else (-7 : Int).tdiv 2 - 1) ∧
       checked_divide_with_rounding 32 (-7) 2 .Round =
         some (if (2 : Int).natAbs ≤ 2 * ((-7 : Int).tmod 2).natAbs then
           (if (0 < (-7 : Int) ∧ 0 < (2 : Int)) ∨
               ((-7 : Int) < 0 ∧ (2 : Int) < 0) then
             (-7 : Int).tdiv 2 + 1 else (-7 : Int).tdiv 2 - 1)
         else (-7 : Int).tdiv 2))) :=
  ⟨⟨by decide, by decide, by decide, by decide, by decide⟩,
    rounding_table 32 (by decide) (-7) 2 (by decide) (by decide) (by decide)
      (by decide)⟩

/-! ### C4: internal arithmetic safety -/

set_option maxHeartbeats 1000000 in
/-- C4: in every successful call whose entry accumulator satisfies the
documented magnitude invariant, the unchecked internal operations stay
in range: the returned (possibly adjusted) quotient `q`, `q + 1` or
`q - 1`, the updated accumulator (covering the flush updates
`acc - divisor` and `acc + divisor`), and, when the step-4 fallback is
taken because `acc + r` overflows, the corrected increments
`r - divisor` (same signs) and `r + divisor` (different signs). -/
theorem internal_arithmetic_safety (w : Nat) (hw : 0 < w) (x d acc : Int)
    (p : Rounding) (q' a' : Int)
    (hx : Representable w x) (hd : Representable w d)
    (hacc : Representable w acc) (hinv : accInv p d acc)
    (h : checked_divide_with_cum_error w x d p acc = (some q', a')) :
    Representable w q' ∧ Representable w a' ∧
    (x.tmod d ≠ 0 → ¬ Representable w (acc + x.tmod d) →
      Representable w (if same_sign x d then x.tmod d - d
        else x.tmod d + d)) := by
  obtain ⟨hd0, ho⟩ := cum_some_inv w x d acc p q' a' h
  have hdabs : (d.natAbs : Int) ≤ 2 ^ (w - 1) :=
    natAbs_le_of_representable w d hd
  have hxabs : (x.natAbs : Int) ≤ 2 ^ (w - 1) :=
    natAbs_le_of_representable w x hx
  have hp2 := two_pow_pred w hw
  have hcst := natCast_two_pow (w - 1)
  have hminr : intMin w = -(2 ^ (w - 1) : Int) := rfl
  have haisn : acc.natAbs ≤ d.natAbs := by
    cases p <;> simp only [accInv] at hinv <;> omega
  have hts := tmod_sign x d
  have hxq := tdiv_tmod_eq x d
  rw [Representable_iff] at hx hd hacc
  by_cases hr0 : x.tmod d = 0
  · rw [cum_eval_exact w x d p acc hd0 ho hr0] at h
    simp only [Prod.mk.injEq, Option.some.injEq] at h
    obtain ⟨h1, h2⟩ := h
    subst h1
    subst h2
    refine ⟨?_, by rw [Representable_iff]; omega, fun hc _ => absurd hr0 hc⟩
    by_cases hd2 : 2 ≤ d.natAbs
    · have hq : (x.tdiv d).natAbs = x.natAbs / d.natAbs :=
        Int.natAbs_tdiv x d
      have hrq := natAbs_tmod x d
      have hdm := Nat.div_add_mod x.natAbs d.natAbs
      have hm2 := Nat.mul_le_mul_left (x.natAbs / d.natAbs) hd2
      have hcm : d.natAbs * (x.natAbs / d.natAbs) =
          (x.natAbs / d.natAbs) * d.natAbs := Nat.mul_comm _ _
      rw [← hrq] at hdm
      have htpos : (0 : Int) < 2 ^ (w - 1) := by positivity
      obtain ⟨A, hA⟩ : ∃ A, x.natAbs / d.natAbs = A := ⟨_, rfl⟩
      rw [hA] at hq hdm hm2 hcm
      clear hA
      have ho2 := ho
      rw [hminr] at ho2
      rw [Representable_iff]
      omega
    · have hd1 : d = 1 ∨ d = -1 := by omega
      rw [Representable_iff]
      rcases hd1 with rfl | rfl
      · omega
      · have hxm : x ≠ intMin w := fun hxm => ho ⟨hxm, rfl⟩
        rw [hminr] at hxm
        omega
  · have hrabs := tmod_natAbs_lt x d hd0
    obtain ⟨hx0, hxd⟩ := tmod_ne_zero_facts x d hr0
    have hiff := same_sign_true_iff x d hx0 hd0 hxd
    have hifff := same_sign_false_iff x d hx0 hd0 hxd
    have hd2 : 2 ≤ d.natAbs := by omega
    have hq : (x.tdiv d).natAbs = x.natAbs / d.natAbs :=
      Int.natAbs_tdiv x d
    have hrq := natAbs_tmod x d
    have hdm := Nat.div_add_mod x.natAbs d.natAbs
    have hm2 := Nat.mul_le_mul_left (x.natAbs / d.natAbs) hd2
    have hcm : d.natAbs * (x.natAbs / d.natAbs) =
        (x.natAbs / d.natAbs) * d.natAbs := Nat.mul_comm _ _
    rw [← hrq] at hdm
    have htpos : (0 : Int) < 2 ^ (w - 1) := by positivity
    obtain ⟨A, hA⟩ : ∃ A, x.natAbs / d.natAbs = A := ⟨_, rfl⟩
    rw [hA] at hq hdm hm2 hcm
    clear hA
    have ho2 := ho
    rw [hminr] at ho2
    by_cases hrep : Representable w (acc + x.tmod d)
    · have hstep := cum_step_accInv w hw x d acc p q' a' hd hinv
        (Or.inr hrep) h
      have hdisj : a'.natAbs < d.natAbs ∨ 2 * a'.natAbs ≤ d.natAbs := by
        cases p <;> simp only [accInv] at hstep <;> omega
      have hq' : q' = x.tdiv d ∨ q' = x.tdiv d + 1 ∨ q' = x.tdiv d - 1 := by
        rw [cum_eval_flush w x d p acc hd0 ho hr0 hrep] at h
        cases p <;> rw [cum_flush] at h <;> repeat' split at h
        all_goals simp only [Prod.mk.injEq, Option.some.injEq] at h
        all_goals obtain ⟨h1, h2⟩ := h
        all_goals omega
      refine ⟨by rw [Representable_iff]; omega,
        by rw [Representable_iff]; omega, fun _ hc => absurd hrep hc⟩
    · rw [cum_eval_fallback w x d p acc hd0 ho hr0 hrep] at h
      rw [Representable_iff] at hrep
      by_cases hss : same_sign x d = true
      · have hssb := hss
        rw [if_pos hss] at h
        rw [hiff] at hss
        simp only [Prod.mk.injEq, Option.some.injEq] at h
        obtain ⟨h1, h2⟩ := h
        subst h1
        subst h2
        refine ⟨by rw [Representable_iff]; omega,
          by rw [Representable_iff]; omega, fun _ _ => ?_⟩
        rw [if_pos hssb, Representable_iff]
        omega
      · have hssb : same_sign x d = false := by
          rcases hv : same_sign x d with _ | _
          · rfl
          · exact absurd hv hss
        rw [if_neg hss] at h
        rw [hifff] at hssb
        simp only [Prod.mk.injEq, Option.some.injEq] at h
        obtain ⟨h1, h2⟩ := h
        subst h1
        subst h2
        refine ⟨by rw [Representable_iff]; omega,
          by rw [Representable_iff]; omega, fun _ _ => ?_⟩
        rw [if_neg hss, Representable_iff]
        omega

/-- Witness for C4 at `w = 8`, `x = 100`, `d = 120`, `acc = 100`,
`p = Floor` (a call that takes the step-4 overflow fallback:
`acc + r = 200 > 127`). -/
theorem internal_arithmetic_safety_witness :
    (0 < 8 ∧ Representable 8 100 ∧ Representable 8 120 ∧
      accInv .Floor 120 100 ∧
      checked_divide_with_cum_error 8 100 120 .Floor 100 =
        (some 1, 80)) ∧
    (Representable 8 1 ∧ Representable 8 80 ∧
     ((100 : Int).tmod 120 ≠ 0 →
       ¬ Representable 8 (100 + (100 : Int).tmod 120) →
       Representable 8 (if same_sign 100 120 then
         (100 : Int).tmod 120 - 120 else (100 : Int).tmod 120 + 120))) :=
  ⟨⟨by decide, by decide, by decide, by decide, by decide⟩,
    internal_arithmetic_safety 8 (by decide) 100 120 100 .Floor 1 80
      (by decide) (by decide) (by decide) (by decide) (by decide)⟩

/-! ### C5: failure condition -/

/-- C5: for representable operands, both dividers fail (return `none`)
exactly when the divisor is zero, or the dividend is the most negative
representable value and the divisor is `-1`; in every other case they
return some quotient. -/
theorem failure_condition (w : Nat) (hw : 0 < w) (left right acc : Int)
    (p : Rounding) (hl : Representable w left)
    (hr : Representable w right) :
    (checked_divide_with_rounding w left right p = none ↔
      right = 0 ∨ (left = intMin w ∧ right = -1)) ∧
    ((checked_divide_with_cum_error w left right p acc).1 = none ↔
      right = 0 ∨ (left = intMin w ∧ right = -1)) := by
  constructor
  · constructor
    · intro hn
      by_contra hc
      exact rounding_ne_none w left right p hc hn
    · intro hc
      rw [checked_divide_with_rounding, checked_div, if_pos hc]
  · constructor
    · intro hn
      by_contra hc
      exact cum_fst_ne_none w left right p acc hc hn
    · intro hc
      rw [checked_divide_with_cum_error, checked_div, if_pos hc]

/-- Witness for C5 at `w = 32`, `left = 7`, `right = 0`. -/
theorem failure_condition_witness :
    (0 < 32 ∧ Representable 32 7 ∧ Representable 32 0) ∧
    ((checked_divide_with_rounding 32 7 0 .Floor = none ↔
      (0 : Int) = 0 ∨ ((7 : Int) = intMin 32 ∧ (0 : Int) = -1)) ∧
     ((checked_divide_with_cum_error 32 7 0 .Floor 5).1 = none ↔
      (0 : Int) = 0 ∨ ((7 : Int) = intMin 32 ∧ (0 : Int) = -1))) :=
  ⟨⟨by decide, by decide, by decide⟩,
    failure_condition 32 (by decide) 7 0 5 .Floor (by decide) (by decide)⟩

/-! ### C6: exactness and frame -/

/-- C6: when the divisor divides the dividend (and the quotient is
representable), both dividers return the exact quotient under every
policy, and the accumulator is left unchanged. -/
theorem exact_division (w : Nat) (left right acc : Int) (p : Rounding)
    (hl : Representable w left) (hr : Representable w right)
    (hd : right ≠ 0) (ho : ¬(left = intMin w ∧ right = -1))
    (hmod : left.tmod right = 0) :
    right * left.tdiv right = left ∧
    checked_divide_with_rounding w left right p = some (left.tdiv right) ∧
    checked_divide_with_cum_error w left right p acc =
      (some (left.tdiv right), acc) := by
  refine ⟨?_, rounding_eval_exact w left right p hd ho hmod,
    cum_eval_exact w left right p acc hd ho hmod⟩
  have h := tdiv_tmod_eq left right
  omega

/-- Witness for C6 at `w = 32`, `left = 6`, `right = 3`, `acc = 9`. -/
theorem exact_division_witness :
    (Representable 32 6 ∧ Representable 32 3 ∧ (3 : Int) ≠ 0 ∧
      (6 : Int).tmod 3 = 0) ∧
    ((3 : Int) * (6 : Int).tdiv 3 = 6 ∧
     checked_divide_with_rounding 32 6 3 .Ceiling = some ((6 : Int).tdiv 3) ∧
     checked_divide_with_cum_error 32 6 3 .Ceiling 9 =
       (some ((6 : Int).tdiv 3), 9)) :=
  ⟨⟨by decide, by decide, by decide, by decide⟩,
    exact_division 32 6 3 9 .Ceiling (by decide) (by decide) (by decide)
      (by decide) (by decide)⟩

/-! ### C7: same_sign contract -/

/-- C7 counterexample: the claim "`same_sign a b` is true iff `a` and
`b` have the same sign, for all non-zero `a`, `b`" fails at `a = b = 5`:
`5 ^^^ 5 = 0` is not positive, so `same_sign 5 5 = false` although the
signs agree. -/
theorem same_sign_claim_counterexample :
    ¬ (same_sign 5 5 = true ↔
        ((0 < (5 : Int) ∧ 0 < (5 : Int)) ∨ ((5 : Int) < 0 ∧ (5 : Int) < 0))) := by
  decide

/-- C7 amended: for non-zero `a ≠ b`, `same_sign a b` is true iff `a`
and `b` have the same sign. -/
theorem same_sign_contract (a b : Int) (ha : a ≠ 0) (hb : b ≠ 0)
    (hab : a ≠ b) :
    same_sign a b = true ↔ ((0 < a ∧ 0 < b) ∨ (a < 0 ∧ b < 0)) :=
  same_sign_true_iff a b ha hb hab

/-- Witness for the amended C7 at `a = 2`, `b = 5`. -/
theorem same_sign_contract_witness :
    ((2 : Int) ≠ 0 ∧ (5 : Int) ≠ 0 ∧ (2 : Int) ≠ 5) ∧
    (same_sign 2 5 = true ↔
      ((0 < (2 : Int) ∧ 0 < (5 : Int)) ∨ ((2 : Int) < 0 ∧ (5 : Int) < 0))) :=
  ⟨⟨by decide, by decide, by decide⟩,
    same_sign_contract 2 5 (by decide) (by decide) (by decide)⟩

/-! ### C8: magnitude-half predicate contract -/

/-- C8: for representable `a`, `b`, `cmp_abs_half_ge a b` is true iff
`2|a| ≥ |b|` over exact integers; in particular it is true whenever the
unsigned doubling of `|a|` overflows the `w`-bit unsigned range. -/
theorem magnitude_half_contract (w : Nat) (hw : 0 < w) (a b : Int)
    (ha : Representable w a) (hb : Representable w b) :
    (cmp_abs_half_ge w a b = true ↔ b.natAbs ≤ 2 * a.natAbs) ∧
    (2 ^ w - 1 < a.natAbs + a.natAbs → cmp_abs_half_ge w a b = true) := by
  refine ⟨cmp_abs_half_ge_true_iff w hw a b hb, fun h => ?_⟩
  rw [cmp_abs_half_ge, if_neg (by omega)]

/-- Witness for C8 at `w = 8`, `a = 100`, `b = 7`. -/
theorem magnitude_half_contract_witness :
    (0 < 8 ∧ Representable 8 100 ∧ Representable 8 7) ∧
    ((cmp_abs_half_ge 8 100 7 = true ↔
        (7 : Int).natAbs ≤ 2 * (100 : Int).natAbs) ∧
     (2 ^ 8 - 1 < (100 : Int).natAbs + (100 : Int).natAbs →
        cmp_abs_half_ge 8 100 7 = true)) :=
  ⟨⟨by decide, by decide, by decide⟩,
    magnitude_half_contract 8 (by decide) 100 7 (by decide) (by decide)⟩

/-! ### C9: concrete scenario -/

/-- C9: the dividend sequence 20, 20, 20 with divisor 3 under `Round`
produces quotients 7, 6, 7 and accumulators -1, 1, 0, and the quotient
sum 20 equals the single-shot division of 60 by 3. -/
theorem concrete_scenario :
    checked_divide_with_cum_error 32 20 3 .Round 0 = (some 7, -1) ∧
    checked_divide_with_cum_error 32 20 3 .Round (-1) = (some 6, 1) ∧
    checked_divide_with_cum_error 32 20 3 .Round 1 = (some 7, 0) ∧
    checked_divide_with_rounding 32 60 3 .Round = some 20 ∧
    (7 : Int) + 6 + 7 = 20 := by
  decide

/-! ### C10: error atomicity -/

/-- C10: whenever the error-feedback divider fails (returns `none`),
the accumulator is left exactly unchanged. -/
theorem error_atomicity (w : Nat) (left right acc : Int) (p : Rounding)
    (h : (checked_divide_with_cum_error w left right p acc).1 = none) :
    (checked_divide_with_cum_error w left right p acc).2 = acc := by
  by_cases hc : right = 0 ∨ (left = intMin w ∧ right = -1)
  · rw [checked_divide_with_cum_error, checked_div, if_pos hc]
  · exact absurd h (cum_fst_ne_none w left right p acc hc)

/-- Witness for C10 at `w = 32`, `left = 5`, `right = 0`, `acc = 42`. -/
theorem error_atomicity_witness :
    ((checked_divide_with_cum_error 32 5 0 .Round 42).1 = none) ∧
    ((checked_divide_with_cum_error 32 5 0 .Round 42).2 = 42) :=
  ⟨by decide, error_atomicity 32 5 0 42 .Round (by decide)⟩

end IntDivCumError
